import Mathlib

/-!
Verification of the analytic core of the PoliticalAlignmentCaseStudy
notebook (02_polviews.ipynb).

The notebook builds a pipeline over a table of survey rows, each row a
pair of a survey year and a political-view response on a 7-point ordinal
scale.  A response may be missing; pandas represents a missing response
as NaN, which we model as `none` in an `Option ℚ`.  Category codes and
fractions are modelled as rationals, so every quantity in the embedding
is exact; the floating-point tolerances of the specification are
trivially met by exact results.

Embedded operations, each translated from the notebook source:

* `values`        — the helper `values(series)`, i.e.
                    `series.value_counts().sort_index()`: counts of each
                    distinct non-missing value, keys sorted ascending.
* `Pmf.from_seq`  — `empiricaldist.Pmf.from_seq(seq)`: value counts with
                    `normalize=True, dropna=True`, then `sort_index`
                    ascending; fractions are count divided by the number
                    of non-missing observations.
* `mean_series`   — `gss.groupby(year)[column].mean()`: one entry per
                    distinct year (ascending), value the mean of the
                    non-missing responses of that year, `none` (NaN)
                    when the year has no non-missing response.
* `xtab_norm`     — `pd.crosstab(year, column, normalize=index)`: rows
                    are the years occurring in a (year, value) pair with
                    both present, columns the category values likewise;
                    each cell is the count of the pair divided by the
                    row total.  Every row carries a cell for every
                    column of the full matrix.
* `make_lowess`   — the helper wrapping `statsmodels lowess`: sorts the
                    points by x and returns one locally weighted
                    regression estimate per input point.  The fitted
                    value is the tricube-weighted local linear fit at
                    each x over the k nearest points, k the integer
                    part of frac * n (conventional span frac = 2/3)
                    conformed by the library into the range [2, n].  A
                    neighbourhood of zero radius makes the library
                    divide the in-window distances 0 by 0, and the
                    resulting NaN weights propagate to the fitted
                    value, so the estimate at such a point is NaN,
                    modelled as `none`.  The robustifying iterations
                    of the library routine are not reproduced, as they
                    alter only finite fitted y-values, never the
                    x-positions, the length or the totality of the
                    result, which are what the claims below concern.
-/

namespace Polviews

/-- dropna: pandas `value_counts`, `mean` and `crosstab` skip missing
values (NaN); this extracts the non-missing values of a column. -/
def dropna (l : List (Option ℚ)) : List ℚ :=
  l.filterMap id

/-- Ascending sort of rational keys, as `sort_index` produces. -/
def sortQ (l : List ℚ) : List ℚ :=
  l.insertionSort (· ≤ ·)

/-- Ascending sort of integer year keys, as `groupby` and `crosstab`
produce. -/
def sortZ (l : List ℤ) : List ℤ :=
  l.insertionSort (· ≤ ·)

/-- Embedding of the notebook helper `values(series)`, defined there as
`series.value_counts().sort_index()`: each distinct non-missing value
paired with its count, keys ascending. -/
def values (series : List (Option ℚ)) : List (ℚ × ℕ) :=
  (sortQ (dropna series).dedup).map fun v => (v, (dropna series).count v)

namespace Pmf

/-- Embedding of `empiricaldist.Pmf.from_seq(seq)`: value counts with
`normalize=True, sort=False, dropna=True`, then `sort_index` ascending.
Each fraction is the count of the value divided by the number of
non-missing observations.  On an empty (or all-missing) input the
underlying `value_counts` produces an empty series and no error is
raised, so the result is the empty mapping. -/
def from_seq (seq : List (Option ℚ)) : List (ℚ × ℚ) :=
  (sortQ (dropna seq).dedup).map fun v =>
    (v, ((dropna seq).count v : ℚ) / ((dropna seq).length : ℚ))

end Pmf

/-- Distinct years of the table in ascending order, the group keys of
`gss.groupby(year)`.  A row with a missing response still belongs to
its year group. -/
def groupYears (gss : List (ℤ × Option ℚ)) : List ℤ :=
  sortZ (gss.map Prod.fst).dedup

/-- Non-missing response values of the given year. -/
def yearValues (gss : List (ℤ × Option ℚ)) (y : ℤ) : List ℚ :=
  gss.filterMap fun r => if r.1 = y then r.2 else none

/-- Mean of a list of values; `none` models the NaN that pandas `mean`
yields for a group with no non-missing observation. -/
def meanOpt (l : List ℚ) : Option ℚ :=
  if l.isEmpty then none else some (l.sum / (l.length : ℚ))

/-- Embedding of `mean_series = gss.groupby(year)[column].mean()`: one
entry per distinct year of the table, holding the mean of the
non-missing responses of that year. -/
def mean_series (gss : List (ℤ × Option ℚ)) : List (ℤ × Option ℚ) :=
  (groupYears gss).map fun y => (y, meanOpt (yearValues gss y))

/-- Pairs entering `pd.crosstab(year, column)`: the rows of the table
whose response is present.  pandas drops a pair when either coordinate
is missing. -/
def crosstabPairs (gss : List (ℤ × Option ℚ)) : List (ℤ × ℚ) :=
  gss.filterMap fun r => r.2.map fun v => (r.1, v)

/-- Row index of the cross-tabulation: years occurring in some retained
pair, ascending. -/
def ctYears (gss : List (ℤ × Option ℚ)) : List ℤ :=
  sortZ ((crosstabPairs gss).map Prod.fst).dedup

/-- Column index of the cross-tabulation: category values occurring in
some retained pair, ascending. -/
def ctCats (gss : List (ℤ × Option ℚ)) : List ℚ :=
  sortQ ((crosstabPairs gss).map Prod.snd).dedup

/-- Category values of the retained pairs of one year. -/
def yearCats (gss : List (ℤ × Option ℚ)) (y : ℤ) : List ℚ :=
  (crosstabPairs gss).filterMap fun p => if p.1 = y then some p.2 else none

/-- Cell count of the cross-tabulation: occurrences of the pair
(year, category). -/
def ctCount (gss : List (ℤ × Option ℚ)) (y : ℤ) (c : ℚ) : ℕ :=
  (yearCats gss y).count c

/-- Row total of the cross-tabulation: retained pairs of the year. -/
def rowTotal (gss : List (ℤ × Option ℚ)) (y : ℤ) : ℕ :=
  (yearCats gss y).length

/-- One row of `pd.crosstab(year, column, normalize=index)`: a cell for
every column of the matrix, holding the cell count divided by the row
total.  A category absent in the year contributes the cell 0, not a
missing cell. -/
def xtab_norm_row (gss : List (ℤ × Option ℚ)) (y : ℤ) : List (ℚ × ℚ) :=
  (ctCats gss).map fun c => (c, (ctCount gss y c : ℚ) / (rowTotal gss y : ℚ))

/-- Embedding of `xtab_norm = pd.crosstab(year, column, normalize=index)`:
one row per year of the row index, each row normalized by its total. -/
def xtab_norm (gss : List (ℤ × Option ℚ)) : List (ℤ × List (ℚ × ℚ)) :=
  (ctYears gss).map fun y => (y, xtab_norm_row gss y)

/-- Comparison of points by x-position, the order `lowess` sorts by. -/
def byX (p q : ℚ × ℚ) : Prop :=
  p.1 ≤ q.1

instance : DecidableRel byX :=
  fun p q => inferInstanceAs (Decidable (p.1 ≤ q.1))

instance : IsTotal (ℚ × ℚ) byX :=
  ⟨fun p q => le_total p.1 q.1⟩

instance : IsTrans (ℚ × ℚ) byX :=
  ⟨fun _ _ _ h1 h2 => le_trans h1 h2⟩

/-- Tricube weight kernel of LOWESS. -/
def tricube (u : ℚ) : ℚ :=
  if |u| < 1 then (1 - |u| ^ 3) ^ 3 else 0

/-- Number of neighbours entering each local fit: the integer part of
frac * n with the conventional LOWESS span frac = 2/3, conformed by
the library into the range [2, n]. -/
def lowessK (n : ℕ) : ℕ :=
  min (max (2 * n / 3) 2) n

/-- Local bandwidth at x0: distance to the k-th nearest x. -/
def bandwidth (xs : List ℚ) (x0 : ℚ) : ℚ :=
  (sortQ (xs.map fun x => |x - x0|)).getD (lowessK xs.length - 1) 0

/-- Tricube-weighted local linear fit evaluated at x0, with the
weighted mean as the degenerate fallback when the design is singular.
When the neighbourhood radius is zero — a single point, or the whole
window at one x — the library divides the in-window distances 0 by
the radius 0, producing NaN weights that propagate through the sums
to the fitted value (no fallback fires on NaN); `none` models that
NaN result. -/
def localFit (pts : List (ℚ × ℚ)) (x0 : ℚ) : Option ℚ :=
  let h := bandwidth (pts.map Prod.fst) x0
  if h = 0 then none
  else
    let w : ℚ → ℚ := fun x => tricube ((x - x0) / h)
    let sw := (pts.map fun p => w p.1).sum
    let swx := (pts.map fun p => w p.1 * p.1).sum
    let swy := (pts.map fun p => w p.1 * p.2).sum
    let swxx := (pts.map fun p => w p.1 * p.1 * p.1).sum
    let swxy := (pts.map fun p => w p.1 * p.1 * p.2).sum
    let denom := sw * swxx - swx * swx
    if denom = 0 then some (swy / sw)
    else
      let b := (sw * swxy - swx * swy) / denom
      some ((swy - b * swx) / sw + b * x0)

/-- Embedding of the library `lowess(y, x)` call as the notebook uses
it: sort the points by x and return one locally weighted regression
estimate per input point, at the input x-positions.  The routine
performs no validation of the input size and raises no error; a
degenerate neighbourhood yields a NaN (`none`) estimate, not a
failure. -/
def lowess (pts : List (ℚ × ℚ)) : List (ℚ × Option ℚ) :=
  let sorted := List.insertionSort byX pts
  sorted.map fun p => (p.1, localFit sorted p.1)

/-- Embedding of the notebook helper `make_lowess(series)`: it passes
the series straight to `lowess` and repackages the result, adding no
validation and no error path of its own.  In particular no
`InsufficientDataError` exists anywhere in the program. -/
def make_lowess (series : List (ℚ × ℚ)) : List (ℚ × Option ℚ) :=
  lowess series

/-! Helper lemmas. -/

lemma dropna_map_some (l : List ℚ) : dropna (l.map some) = l := by
  induction l with
  | nil => rfl
  | cons a l ih => simp [dropna, List.filterMap_cons] at ih ⊢

lemma sortQ_perm (l : List ℚ) : List.Perm (sortQ l) l :=
  List.perm_insertionSort _ l

lemma sortQ_sorted (l : List ℚ) : (sortQ l).Sorted (· ≤ ·) :=
  List.sorted_insertionSort _ l

lemma sortZ_perm (l : List ℤ) : List.Perm (sortZ l) l :=
  List.perm_insertionSort _ l

/-- The keys of the frequency mapping are the sorted distinct
non-missing input values. -/
lemma from_seq_keys_eq (seq : List (Option ℚ)) :
    (Pmf.from_seq seq).map Prod.fst = sortQ (dropna seq).dedup := by
  simp [Pmf.from_seq, List.map_map, Function.comp_def]

/-! Theorems settling the claims. -/

/-- C3 counterexample: on the empty input sequence the Frequency
Estimator does not fail; it returns the empty mapping.  No
`EmptyInputError` exists anywhere in the program, so the claimed
failure cannot occur. -/
theorem from_seq_empty_returns_empty_mapping :
    Pmf.from_seq ([] : List (Option ℚ)) = [] :=
  rfl

/-- C3 (amended): on an input sequence with no non-missing value — in
particular the empty sequence — the Frequency Estimator returns the
empty mapping rather than failing. -/
theorem from_seq_all_missing_empty_mapping (seq : List (Option ℚ))
    (h : dropna seq = []) :
    Pmf.from_seq seq = [] := by
  simp [Pmf.from_seq, h, sortQ, List.insertionSort]

/-- C3 witness: the amended theorem applied to the all-missing
one-element sequence. -/
theorem from_seq_all_missing_empty_mapping_witness :
    dropna [none] = [] ∧ Pmf.from_seq [none] = [] :=
  ⟨rfl, from_seq_all_missing_empty_mapping [none] rfl⟩

/-- C5: the scalar-summary mode of the Temporal Aggregator produces
exactly one output point per distinct year present in the input: the
output keys are the distinct input years in ascending order, the
output length is the number of distinct input years, and a year occurs
among the output keys exactly when some input row carries it. -/
theorem mean_series_one_point_per_year (gss : List (ℤ × Option ℚ)) :
    (mean_series gss).map Prod.fst = groupYears gss ∧
    (mean_series gss).length = (gss.map Prod.fst).dedup.length ∧
    ∀ y : ℤ, y ∈ (mean_series gss).map Prod.fst ↔ y ∈ gss.map Prod.fst := by
  have h1 : (mean_series gss).map Prod.fst = groupYears gss := by
    simp [mean_series, List.map_map, Function.comp_def]
  refine ⟨h1, ?_, ?_⟩
  · rw [mean_series, List.length_map, groupYears, sortZ]
    exact (List.perm_insertionSort _ _).length_eq
  · intro y
    rw [h1, groupYears, sortZ]
    exact (List.perm_insertionSort _ _).mem_iff.trans List.mem_dedup

/-- C6: the series returned by the Trend Smoother is sorted ascending
by its x (index) values. -/
theorem make_lowess_sorted_by_x (s : List (ℚ × ℚ)) :
    ((make_lowess s).map Prod.fst).Sorted (· ≤ ·) := by
  have h := List.sorted_insertionSort byX s
  rw [make_lowess, lowess, List.map_map]
  simpa [List.Sorted, List.pairwise_map, byX, Function.comp_def] using h

/-- C8: the keys of the Frequency Estimator output are sorted
ascending, have no duplicate, and are exactly the distinct values
present in the input sample. -/
theorem from_seq_keys_distinct_sorted (l : List ℚ) :
    ((Pmf.from_seq (l.map some)).map Prod.fst).Sorted (· ≤ ·) ∧
    ((Pmf.from_seq (l.map some)).map Prod.fst).Nodup ∧
    ∀ v : ℚ, v ∈ (Pmf.from_seq (l.map some)).map Prod.fst ↔ v ∈ l := by
  rw [from_seq_keys_eq, dropna_map_some]
  refine ⟨sortQ_sorted _, (sortQ_perm _).nodup_iff.2 (List.nodup_dedup l), ?_⟩
  intro v
  exact (sortQ_perm _).mem_iff.trans List.mem_dedup

/-- Summing an indicator over a list not containing the marked element
gives zero. -/
lemma indicator_sum_zero {α : Type} [DecidableEq α] (a : α) (S : List α)
    (h : a ∉ S) :
    (S.map fun c => if a = c then (1 : ℕ) else 0).sum = 0 := by
  induction S with
  | nil => rfl
  | cons b S ih =>
    simp only [List.map_cons, List.sum_cons]
    rw [if_neg fun hab => h (List.mem_cons.2 (Or.inl hab)),
      ih fun hm => h (List.mem_cons_of_mem _ hm)]

/-- Summing an indicator over a duplicate-free list containing the
marked element gives one. -/
lemma indicator_sum_one {α : Type} [DecidableEq α] (a : α) (S : List α)
    (hnd : S.Nodup) (h : a ∈ S) :
    (S.map fun c => if a = c then (1 : ℕ) else 0).sum = 1 := by
  induction S with
  | nil => cases h
  | cons b S ih =>
    rcases List.mem_cons.1 h with rfl | hm
    · simp only [List.map_cons, List.sum_cons]
      rw [indicator_sum_zero a S (List.nodup_cons.1 hnd).1]
      simp
    · have hb : a ≠ b := fun hab =>
        (List.nodup_cons.1 hnd).1 (hab ▸ hm)
      simp only [List.map_cons, List.sum_cons, if_neg hb]
      rw [ih (List.nodup_cons.1 hnd).2 hm, Nat.zero_add]

/-- Summing the occurrence counts of a list over any duplicate-free
list of keys covering all its elements yields its length. -/
lemma sum_count_covering {α : Type} [DecidableEq α] (S : List α)
    (hnd : S.Nodup) :
    ∀ L : List α, (∀ a, a ∈ L → a ∈ S) →
      (S.map fun c => L.count c).sum = L.length := by
  intro L
  induction L with
  | nil => intro _; simp
  | cons a L ih =>
    intro hcov
    have hmap : (S.map fun c => (a :: L).count c)
        = S.map fun c => L.count c + if a = c then 1 else 0 := by
      simp only [List.count_cons, beq_iff_eq]
    rw [hmap, List.sum_map_add,
      ih fun b hb => hcov b (List.mem_cons_of_mem a hb),
      indicator_sum_one a S hnd (hcov a (List.mem_cons_self a L)),
      List.length_cons]

/-- Dividing each summand by a constant divides the sum. -/
lemma sum_map_div_const {α : Type} (S : List α) (f : α → ℚ) (t : ℚ) :
    (S.map fun c => f c / t).sum = (S.map f).sum / t := by
  simp only [div_eq_mul_inv]
  rw [List.sum_map_mul_right]

/-- Casting each summand to ℚ casts the sum. -/
lemma sum_map_natCast {α : Type} (S : List α) (f : α → ℕ) :
    (S.map fun c => (f c : ℚ)).sum = ((S.map f).sum : ℚ) := by
  rw [Nat.cast_list_sum, List.map_map]
  rfl

/-- C1: for a non-empty input sequence of category values, the
fractions of the Frequency Estimator sum to 1 within 1e-9; in the
exact embedding they sum to 1 on the nose. -/
theorem from_seq_fractions_sum_to_one (l : List ℚ) (h : l ≠ []) :
    |((Pmf.from_seq (l.map some)).map Prod.snd).sum - 1| ≤ 1 / 1000000000 := by
  have hsum : ((Pmf.from_seq (l.map some)).map Prod.snd).sum = 1 := by
    rw [Pmf.from_seq, dropna_map_some, List.map_map]
    have hcomp : (Prod.snd ∘ fun v => (v, (l.count v : ℚ) / (l.length : ℚ)))
        = fun v => (l.count v : ℚ) / (l.length : ℚ) := rfl
    rw [hcomp, sum_map_div_const, sum_map_natCast,
      (List.Perm.map _ (sortQ_perm l.dedup)).sum_eq,
      List.sum_map_count_dedup_eq_length]
    exact div_self (Nat.cast_ne_zero.2 fun h0 => h (List.length_eq_zero.1 h0))
  rw [hsum]
  norm_num

/-- C1 witness: the theorem applied to the four-observation sample of
the specification scenario. -/
theorem from_seq_fractions_sum_to_one_witness :
    ([(1 : ℚ), 2, 2, 4] ≠ []) ∧
    |((Pmf.from_seq ([(1 : ℚ), 2, 2, 4].map some)).map Prod.snd).sum - 1|
      ≤ 1 / 1000000000 :=
  ⟨by simp, from_seq_fractions_sum_to_one [1, 2, 2, 4] (by simp)⟩

/-- Every category value of a given year is a column of the
cross-tabulation. -/
lemma yearCats_subset_ctCats (gss : List (ℤ × Option ℚ)) (y : ℤ) :
    ∀ a, a ∈ yearCats gss y → a ∈ ctCats gss := by
  intro a ha
  rw [yearCats, List.mem_filterMap] at ha
  obtain ⟨p, hp, hpa⟩ := ha
  rw [ctCats, (sortQ_perm _).mem_iff, List.mem_dedup, List.mem_map]
  by_cases hpy : p.1 = y
  · rw [if_pos hpy] at hpa
    exact ⟨p, hp, Option.some.inj hpa⟩
  · rw [if_neg hpy] at hpa
    cases hpa

/-- A year of the row index has at least one retained pair. -/
lemma rowTotal_ne_zero (gss : List (ℤ × Option ℚ)) (y : ℤ)
    (hy : y ∈ ctYears gss) : rowTotal gss y ≠ 0 := by
  rw [ctYears, (sortZ_perm _).mem_iff, List.mem_dedup, List.mem_map] at hy
  obtain ⟨p, hp, hpy⟩ := hy
  have hmem : p.2 ∈ yearCats gss y := by
    rw [yearCats, List.mem_filterMap]
    exact ⟨p, hp, by rw [if_pos hpy]⟩
  rw [rowTotal]
  intro hlen
  rw [List.length_eq_zero] at hlen
  rw [hlen] at hmem
  cases hmem

/-- Row sum of one year of the normalized cross-tabulation is exactly
1. -/
lemma xtab_norm_row_sum_eq_one (gss : List (ℤ × Option ℚ)) (y : ℤ)
    (hy : y ∈ ctYears gss) :
    ((xtab_norm_row gss y).map Prod.snd).sum = 1 := by
  rw [xtab_norm_row, List.map_map]
  have hcomp : (Prod.snd ∘ fun c =>
      (c, (ctCount gss y c : ℚ) / (rowTotal gss y : ℚ)))
      = fun c => (ctCount gss y c : ℚ) / (rowTotal gss y : ℚ) := rfl
  rw [hcomp, sum_map_div_const, sum_map_natCast]
  have hnd : (ctCats gss).Nodup :=
    (sortQ_perm _).nodup_iff.2 (List.nodup_dedup _)
  have hcount : ((ctCats gss).map fun c => ctCount gss y c).sum
      = rowTotal gss y := by
    simp only [ctCount, rowTotal]
    exact sum_count_covering (ctCats gss) hnd (yearCats gss y)
      (yearCats_subset_ctCats gss y)
  rw [hcount]
  exact div_self (Nat.cast_ne_zero.2 (rowTotal_ne_zero gss y hy))

/-- C2: every row of the cross-tabulation matrix normalized by row
(normalize=index) has cell fractions summing to 1 within 1e-9; in the
exact embedding each row sums to 1 on the nose. -/
theorem xtab_norm_rows_sum_to_one (gss : List (ℤ × Option ℚ))
    (row : ℤ × List (ℚ × ℚ)) (hrow : row ∈ xtab_norm gss) :
    |((row.2.map Prod.snd).sum) - 1| ≤ 1 / 1000000000 := by
  rw [xtab_norm, List.mem_map] at hrow
  obtain ⟨y, hy, hrow⟩ := hrow
  rw [← hrow]
  rw [xtab_norm_row_sum_eq_one gss y hy]
  norm_num

/-- Concrete five-row sample table used by witnesses. -/
def sampleTable : List (ℤ × Option ℚ) :=
  [(1974, some 1), (1974, some 2), (1974, some 2), (1974, some 4),
    (2018, some 2)]

set_option maxHeartbeats 1000000 in
/-- C2 witness: the theorem applied to the 1974 row of the matrix of
the concrete five-row table. -/
theorem xtab_norm_rows_sum_to_one_witness :
    ((1974 : ℤ), xtab_norm_row sampleTable 1974) ∈ xtab_norm sampleTable ∧
    |(((xtab_norm_row sampleTable 1974).map Prod.snd).sum) - 1|
      ≤ 1 / 1000000000 :=
  have hy : (1974 : ℤ) ∈ ctYears sampleTable := by decide
  have hrow : ((1974 : ℤ), xtab_norm_row sampleTable 1974)
      ∈ xtab_norm sampleTable :=
    List.mem_map_of_mem _ hy
  ⟨hrow, xtab_norm_rows_sum_to_one sampleTable
    ((1974 : ℤ), xtab_norm_row sampleTable 1974) hrow⟩

/-- C7: a category occurring in the input but absent in a given year
yields the present cell 0 in that row of the normalized
cross-tabulation, not a missing cell. -/
theorem xtab_norm_absent_category_cell_zero (gss : List (ℤ × Option ℚ))
    (y : ℤ) (c : ℚ) (hy : y ∈ ctYears gss) (hc : c ∈ ctCats gss)
    (h0 : ctCount gss y c = 0) :
    (y, xtab_norm_row gss y) ∈ xtab_norm gss ∧
    (c, (0 : ℚ)) ∈ xtab_norm_row gss y := by
  constructor
  · rw [xtab_norm]
    exact List.mem_map_of_mem _ hy
  · have hmem := List.mem_map_of_mem
      (fun c => (c, (ctCount gss y c : ℚ) / (rowTotal gss y : ℚ))) hc
    simp only [h0, Nat.cast_zero, zero_div] at hmem
    rw [xtab_norm_row]
    exact hmem

/-- C7 witness: the theorem applied to a table where category 2 occurs
only in 2018, so the 1974 row records the cell (2, 0). -/
theorem xtab_norm_absent_category_cell_zero_witness :
    ((1974 : ℤ) ∈ ctYears [((1974 : ℤ), some (1 : ℚ)), (2018, some 2)] ∧
      (2 : ℚ) ∈ ctCats [((1974 : ℤ), some (1 : ℚ)), (2018, some 2)] ∧
      ctCount [((1974 : ℤ), some (1 : ℚ)), (2018, some 2)] 1974 2 = 0) ∧
    ((1974 : ℤ),
        xtab_norm_row [((1974 : ℤ), some (1 : ℚ)), (2018, some 2)] 1974)
      ∈ xtab_norm [((1974 : ℤ), some (1 : ℚ)), (2018, some 2)] ∧
    ((2 : ℚ), (0 : ℚ))
      ∈ xtab_norm_row [((1974 : ℤ), some (1 : ℚ)), (2018, some 2)] 1974 :=
  ⟨⟨by decide, by decide, by decide⟩,
    xtab_norm_absent_category_cell_zero _ 1974 2 (by decide) (by decide)
      (by decide)⟩

/-- C9: the Frequency Estimator and both modes of the Temporal
Aggregator are deterministic pure functions.  The embedded operations
mirror the source functions, which read nothing but their arguments
and mutate nothing: in the embedding each is a function, so two runs
on the same input denote the same output. -/
theorem estimator_and_aggregator_deterministic
    (seq : List (Option ℚ)) (gss : List (ℤ × Option ℚ)) :
    Pmf.from_seq seq = Pmf.from_seq seq ∧
    values seq = values seq ∧
    mean_series gss = mean_series gss ∧
    xtab_norm gss = xtab_norm gss :=
  ⟨rfl, rfl, rfl, rfl⟩

/-- Bandwidth of the single-point series is zero. -/
lemma bandwidth_single (x : ℚ) : bandwidth [x] x = 0 := by
  simp [bandwidth, sortQ, lowessK, List.insertionSort]

/-- Local fit on a single point: the neighbourhood radius is zero, so
the fitted value is the NaN of the library, modelled as `none`. -/
lemma localFit_single (x y : ℚ) : localFit [(x, y)] x = none := by
  simp [localFit, bandwidth_single]

/-- Smoothing a single point keeps its x position and fits NaN. -/
lemma lowess_single (x y : ℚ) : lowess [(x, y)] = [(x, none)] := by
  rw [lowess]
  simp [List.insertionSort, List.orderedInsert, localFit_single]

/-- C4 counterexample: on the single input point (2000, 5) the Trend
Smoother does not fail with `InsufficientDataError`; the notebook
helper performs no validation and no such error exists anywhere in
the program.  The library returns the one-point series at x = 2000
whose fitted value is NaN — the zero neighbourhood radius turns the
tricube weights into NaN — modelled as `none`. -/
theorem make_lowess_single_point_returns_series :
    make_lowess [((2000 : ℚ), 5)] = [((2000 : ℚ), (none : Option ℚ))] := by
  rw [make_lowess]
  exact lowess_single 2000 5

/-- C4 (amended): the Trend Smoother never fails on few-point inputs:
it performs no validation and always returns one output point per
input point; on a single input point it returns the x position with a
NaN (`none`) fitted value rather than an error. -/
theorem make_lowess_never_fails (s : List (ℚ × ℚ)) (x y : ℚ) :
    (make_lowess s).length = s.length ∧
    make_lowess [(x, y)] = [(x, (none : Option ℚ))] := by
  constructor
  · rw [make_lowess, lowess, List.length_map]
    exact (List.perm_insertionSort byX s).length_eq
  · rw [make_lowess]
    exact lowess_single x y

/-- C10: the frequency operations silently exclude missing entries:
the output equals the output on the non-missing subsequence, every
output key arises from a non-missing entry of the input, and the
fraction of each key has the count of non-missing entries as its
denominator. -/
theorem from_seq_excludes_missing (seq : List (Option ℚ)) :
    Pmf.from_seq seq = Pmf.from_seq ((dropna seq).map some) ∧
    values seq = values ((dropna seq).map some) ∧
    ∀ v : ℚ, v ∈ (Pmf.from_seq seq).map Prod.fst →
      some v ∈ seq ∧
      (v, ((dropna seq).count v : ℚ) / ((dropna seq).length : ℚ))
        ∈ Pmf.from_seq seq := by
  refine ⟨?_, ?_, ?_⟩
  · simp only [Pmf.from_seq, dropna_map_some]
  · simp only [values, dropna_map_some]
  · intro v hv
    have hv1 : v ∈ sortQ (dropna seq).dedup := by
      rw [from_seq_keys_eq] at hv
      exact hv
    have hv2 : v ∈ dropna seq :=
      List.mem_dedup.1 ((sortQ_perm _).mem_iff.1 hv1)
    refine ⟨?_, ?_⟩
    · rw [dropna, List.mem_filterMap] at hv2
      obtain ⟨o, ho, hov⟩ := hv2
      have ho2 : o = some v := by simpa using hov
      exact ho2 ▸ ho
    · exact List.mem_map_of_mem _ hv1

/-- C10 witness: the theorem applied to a three-entry input with one
missing entry, at the key 1. -/
theorem from_seq_excludes_missing_witness :
    ((1 : ℚ) ∈ (Pmf.from_seq [some (1 : ℚ), none, some 3]).map Prod.fst) ∧
    (some (1 : ℚ) ∈ [some (1 : ℚ), none, some 3] ∧
      ((1 : ℚ),
        ((dropna [some (1 : ℚ), none, some 3]).count 1 : ℚ)
          / ((dropna [some (1 : ℚ), none, some 3]).length : ℚ))
        ∈ Pmf.from_seq [some (1 : ℚ), none, some 3]) :=
  ⟨by decide,
    (from_seq_excludes_missing [some 1, none, some 3]).2.2 1 (by decide)⟩

end Polviews

